import Mathlib

/-!
Shallow embedding of the core of the `ext4-rs` read-only ext4 reader:
the sparse-aware stream reader (`src/extents.rs`), the extent-tree loader
(`src/extents.rs`), the inode locator (`src/lib.rs`), and the superblock
validation (`src/parse.rs` / `src/lib.rs`).  Machine integers are modelled
as `Nat` (with explicit `% 2^w` where wrap-around matters), fallible Rust
code as `Except` / a three-valued `Outcome` that distinguishes a returned
error from a process abort (`assert!` panic).
-/

namespace Ext4

/-- Error kinds a call can return to the caller (Rust `io::Error` /
`anyhow::Error` values, distinguishable by kind or message). -/
inductive Err : Type
  | io : Nat → Err
  | decryptFailed : Nat → Err
  | arith : Err
  | fuelOut : Err
  | badExtentMagic : Err
  | depthMismatch : Err
  | extentTooDeep : Err
  | checksumMismatch : Err
  | badMagic : Err
  | unknownFeature : Err
  | unsupportedFeature : Err
  | nonLinuxCreator : Err
  | uncleanState : Err
  | zeroInodesPerGroup : Err
  | badBlockSize : Err
  | badRevLevel : Err
deriving DecidableEq, Repr

/-- Result of a Rust call, separating a returned (caller-handleable) error
from an `assert!`/`assert_eq!` failure, which aborts the process. -/
inductive Outcome (α : Type) : Type
  | ok : α → Outcome α
  | error : Err → Outcome α
  | panicked : Outcome α
deriving DecidableEq, Repr

/-- `Extent` from `src/extents.rs`: `part` is the logical block ("block"
in the docs), `start` the physical start block, `len` the block count. -/
structure Extent : Type where
  part : Nat
  start : Nat
  len : Nat
deriving DecidableEq, Repr

/-- Byte `i` of a byte buffer; Rust slices hold `u8`, so values are
truncated to a byte (out-of-range indexes would panic in Rust; the claims
only concern well-sized buffers). -/
def byteAt (data : List Nat) (i : Nat) : Nat := data.getD i 0 % 256

/-- `read_le16`: little-endian `u16` at offset `i` (from `&data[i..]`). -/
def read_le16 (data : List Nat) (i : Nat) : Nat :=
  byteAt data i + byteAt data (i + 1) * 0x100

/-- `read_le32`: little-endian `u32` at offset `i` (from `&data[i..]`). -/
def read_le32 (data : List Nat) (i : Nat) : Nat :=
  read_le16 data i + read_le16 data (i + 2) * 0x10000

/-- `FoundPart` from `src/extents.rs`. -/
inductive FoundPart : Type
  | actual : Extent → FoundPart
  | sparse : Nat → FoundPart
deriving DecidableEq, Repr

/-- `find_part` from `src/extents.rs`: scan the extent list for the extent
covering logical block `part`; otherwise report the gap (in blocks) to the
next extent, or `u32::MAX` if none follows. -/
def find_part (part : Nat) : List Extent → FoundPart
  | [] => FoundPart.sparse (2 ^ 32 - 1)
  | e :: rest =>
    if part < e.part then FoundPart.sparse (e.part - part)
    else if part ≥ e.part ∧ part < e.part + e.len then FoundPart.actual e
    else find_part part rest

/-- Modelled from the spec: the raw image accessor (the `InnerReader` /
`ReadAt` types referenced by `src/extents.rs` are not among the provided
sources).  "Random-access read of N bytes at absolute offset O"; Rust's
`read_exact` either fills the whole buffer or fails, so a successful read
returns exactly the requested count (carried here as a proof field).
`readAt` is the metadata-decrypting path, `readAtRaw` the
`read_at_without_decrypt` path. -/
structure Disc : Type where
  readAt : Nat → Nat → Except Err (List Nat)
  readAt_len : ∀ a n l, readAt a n = Except.ok l → l.length = n
  readAtRaw : Nat → Nat → Except Err (List Nat)
  readAtRaw_len : ∀ a n l, readAtRaw a n = Except.ok l → l.length = n

/-- Modelled from the spec: the per-page content-decryption hook
`decrypt_page(ctx, buf, logical_off, phys_off, ino)` (the `Crypto` trait is
not among the provided sources).  It mutates a block-sized page in place,
so a successful call preserves the page length (proof field). -/
structure CryptoM : Type where
  decrypt_page : List Nat → Nat → Nat → Nat → Except Err (List Nat)
  decrypt_len : ∀ p o a i l, decrypt_page p o a i = Except.ok l → l.length = p.length

/-- The mutable state of `TreeReader` from `src/extents.rs`: cursor `pos`,
total size `len`, block size, materialised extent list, whether an
encryption context is present, and the owning inode number. -/
structure TreeReader : Type where
  pos : Nat
  len : Nat
  block_size : Nat
  extents : List Extent
  encrypted : Bool
  ino : Nat
deriving DecidableEq, Repr

/-- One iteration step of the `while block_index < max_block_index` loop in
`<TreeReader as io::Read>::read` (mapped case): read the page at
`page_addr`, optionally decrypt it, append `page[offset_in_page..]` to the
output cursor (capped at its capacity `output_len`), stop when the output
is full.  `fuel` is `max_block_index - block_index`, the number of loop
iterations remaining. -/
def readExtentLoop (disc : Disc) (crypto : CryptoM) (enc : Bool) (ino bs : Nat)
    (ext : Extent) (output_len : Nat) :
    Nat → Nat → Nat → List Nat → Except Err (List Nat)
  | 0, _, _, acc => Except.ok acc
  | fuel + 1, bi, off, acc =>
    let page_addr := (ext.start + (bi - ext.part)) * bs
    let pageE : Except Err (List Nat) :=
      if enc then
        match disc.readAtRaw page_addr bs with
        | Except.error e => Except.error e
        | Except.ok page => crypto.decrypt_page page (bi * bs) page_addr ino
      else disc.readAt page_addr bs
    match pageE with
    | Except.error e => Except.error e
    | Except.ok page =>
      let acc' := acc ++ (page.drop off).take (output_len - acc.length)
      if acc'.length = output_len then Except.ok acc'
      else readExtentLoop disc crypto enc ino bs ext output_len fuel (bi + 1) 0 acc'

/-- `<TreeReader as io::Read>::read` from `src/extents.rs` as a state
transformer: returns the bytes written into the caller's buffer (of
capacity `bufLen`) together with the updated reader.  On an error the
reader is returned as the code left it (`self.pos` is only assigned after
each branch completes). -/
def treeRead (disc : Disc) (crypto : CryptoM) (r : TreeReader) (bufLen : Nat) :
    Except Err (List Nat) × TreeReader :=
  if bufLen = 0 then (Except.ok [], r)
  else if r.pos / r.block_size < 2 ^ 32 then
    let block_index := r.pos / r.block_size
    match find_part block_index r.extents with
    | FoundPart.actual ext =>
      let output_len := min (r.len - r.pos) bufLen
      match readExtentLoop disc crypto r.encrypted r.ino r.block_size ext output_len
          (ext.part + ext.len - block_index) block_index (r.pos % r.block_size) [] with
      | Except.error e => (Except.error e, r)
      | Except.ok out => (Except.ok out, { r with pos := r.pos + out.length })
    | FoundPart.sparse mx =>
      let max_bytes := mx * r.block_size
      let rd := min (min max_bytes bufLen) (r.len - r.pos)
      (Except.ok (List.replicate rd 0), { r with pos := r.pos + rd })
  else (Except.error Err.arith, r)

/-- `Read::read_to_end` driving `TreeReader::read`: repeatedly read into a
spare buffer of `chunk` bytes (always nonempty in Rust) until a read
returns 0 bytes; `fuel` bounds the iteration count ( `Err.fuelOut` marks
exhaustion and is never produced by the reader itself). -/
def readToEnd (disc : Disc) (crypto : CryptoM) (chunk : Nat) :
    Nat → TreeReader → List Nat → Except Err (List Nat)
  | 0, _, _ => Except.error Err.fuelOut
  | fuel + 1, r, acc =>
    match treeRead disc crypto r chunk with
    | (Except.error e, _) => Except.error e
    | (Except.ok bytes, r') =>
      if bytes.length = 0 then Except.ok acc
      else readToEnd disc crypto chunk fuel r' (acc ++ bytes)

/-- `io::SeekFrom`. -/
inductive SeekFrom : Type
  | start : Nat → SeekFrom
  | current : Int → SeekFrom
  | fromEnd : Int → SeekFrom
deriving DecidableEq, Repr

/-- `<TreeReader as io::Seek>::seek` from `src/extents.rs`.
`Start(p)` sets `pos = p`; `Current(d)` computes `(pos as i64 + d) as u64`
(the `i64` addition aborts on overflow in a debug build, and the `u64`
cast wraps); `End(n)` asserts `n ≥ 0` then computes `len - n` (`u64`
subtraction, aborting on underflow in a debug build).  Finally
`assert!(pos <= len)` aborts if the new position exceeds the size;
otherwise the new position is returned. -/
def treeSeek (r : TreeReader) (s : SeekFrom) : Outcome (Nat × TreeReader) :=
  let check : Nat → Outcome (Nat × TreeReader) := fun p =>
    if p ≤ r.len then Outcome.ok (p, { r with pos := p }) else Outcome.panicked
  match s with
  | SeekFrom.start p => check p
  | SeekFrom.current d =>
    let posI : Int := if r.pos < 2 ^ 63 then (r.pos : Int) else (r.pos : Int) - 2 ^ 64
    let sum : Int := posI + d
    if sum < -(2 ^ 63) ∨ 2 ^ 63 ≤ sum then Outcome.panicked
    else check (if 0 ≤ sum then sum.toNat else (sum + 2 ^ 64).toNat)
  | SeekFrom.fromEnd n =>
    if n < 0 then Outcome.panicked
    else if r.len < n.toNat then Outcome.panicked
    else check (r.len - n.toNat)

/-- Modelled from the spec: `ext4_style_crc32c_le`, called from
`src/extents.rs` but not among the provided sources.  Spec §4.7: CRC32C,
polynomial `0x1EDC6F41`, reflected (reflected polynomial `0x82F63B78`),
initial value the per-file seed.  One shift-and-conditional-xor round. -/
def crc32c_round (crc : Nat) : Nat :=
  if crc % 2 = 1 then (crc / 2) ^^^ 0x82F63B78 else crc / 2

/-- Fold one byte into the reflected CRC32C state. -/
def crc32c_byte (crc b : Nat) : Nat := crc32c_round^[8] (crc ^^^ b % 256)

/-- Modelled from the spec: the whole-buffer Ext4-style CRC32C keyed by the
per-file seed (spec §4.7). -/
def ext4_style_crc32c_le (seed : Nat) (data : List Nat) : Nat :=
  data.foldl crc32c_byte (seed % 2 ^ 32)

/-- The header checks shared by every node visit in `add_found_extents`
(`src/extents.rs`): extent magic `0x0a 0xf3`, parsed depth must equal the
expected depth, and, for a non-root node when a checksum seed is present,
the trailing 4 bytes must equal the CRC32C of the preceding bytes — a
mismatch failing only when checksum verification (`verify-checksums`
feature) is enabled.  Returns the entry count on success. -/
def check_header (data : List Nat) (expected_depth : Nat) (csum : Option Nat)
    (first_level : Bool) (verify : Bool) : Except Err Nat :=
  if byteAt data 0 = 0x0a ∧ byteAt data 1 = 0xf3 then
    let extent_entries := read_le16 data 2
    let depth := read_le16 data 6
    if depth = expected_depth then
      match csum, first_level with
      | some seed, false =>
        let end_of_entries := data.length - 4
        let on_disc := read_le32 data end_of_entries
        let computed := ext4_style_crc32c_le seed (data.take end_of_entries)
        if computed ≠ on_disc ∧ verify then Except.error Err.checksumMismatch
        else Except.ok extent_entries
      | _, _ => Except.ok extent_entries
    else Except.error Err.depthMismatch
  else Except.error Err.badExtentMagic

/-- The depth-0 entry extraction of `add_found_extents`
(`src/extents.rs` lines 236-253): entry `en` lives at offset
`12 + en * 12` and yields `(ee_block, ee_len, ee_start)` with
`ee_start = ee_start_lo + 0x1000 * ee_start_hi` — the shift the code
actually performs. -/
def parseLeafEntries (data : List Nat) (n : Nat) : List Extent :=
  (List.range n).map fun en =>
    let base := 12 + en * 12
    { part := read_le32 data base
      len := read_le16 data (base + 4)
      start := read_le32 data (base + 8) + 0x1000 * read_le16 data (base + 6) }

/-- The index-entry recursion of `add_found_extents`: for entries
`en, en+1, ...` (with `fuel` entries remaining), extract
`child = ei_leaf_lo + (ei_leaf_hi << 32)`, load that block, recurse via
`rec_fn`, and concatenate the found extents in order. -/
def go_children (load : Nat → Except Err (List Nat))
    (rec_fn : List Nat → Except Err (List Extent)) (data : List Nat) :
    Nat → Nat → Except Err (List Extent)
  | 0, _ => Except.ok []
  | fuel + 1, en =>
    let base := 12 + en * 12
    let ee_leaf := read_le32 data (base + 4) + read_le16 data (base + 8) * 2 ^ 32
    match load ee_leaf with
    | Except.error e => Except.error e
    | Except.ok child =>
      match rec_fn child with
      | Except.error e => Except.error e
      | Except.ok found =>
        match go_children load rec_fn data fuel (en + 1) with
        | Except.error e => Except.error e
        | Except.ok rest => Except.ok (found ++ rest)

/-- `add_found_extents` from `src/extents.rs`, returning the extents found
under this node (the Rust code appends them to an output vector in the
same order).  Recursion is on the expected depth, which the code enforces
to equal the parsed depth at every node. -/
def add_found_extents (load : Nat → Except Err (List Nat)) (verify : Bool)
    (csum : Option Nat) : Nat → List Nat → Bool → Except Err (List Extent)
  | 0, data, first_level =>
    match check_header data 0 csum first_level verify with
    | Except.error e => Except.error e
    | Except.ok extent_entries => Except.ok (parseLeafEntries data extent_entries)
  | depth + 1, data, first_level =>
    match check_header data (depth + 1) csum first_level verify with
    | Except.error e => Except.error e
    | Except.ok extent_entries =>
      go_children load (fun child => add_found_extents load verify csum depth child false)
        data extent_entries 0

/-- `load_extent_tree` from `src/extents.rs`: validate the inline root's
magic and `depth ≤ 5`, collect all leaf extents, then sort them by logical
block (`sort_by_key(|e| e.part)`, a stable sort — modelled by insertion
sort, which is also stable). -/
def load_extent_tree (load : Nat → Except Err (List Nat)) (verify : Bool)
    (core : List Nat) (csum : Option Nat) : Except Err (List Extent) :=
  if byteAt core 0 = 0x0a ∧ byteAt core 1 = 0xf3 then
    if read_le16 core 6 ≤ 5 then
      match add_found_extents load verify csum (read_le16 core 6) core true with
      | Except.error e => Except.error e
      | Except.ok extents =>
        Except.ok (extents.insertionSort fun a b => a.part ≤ b.part)
    else Except.error Err.extentTooDeep
  else Except.error Err.badExtentMagic

/-- `BlockGroup` from `src/lib.rs`: inode table start block and the count
of used inodes in the group. -/
structure BlockGroup : Type where
  inode_table_block : Nat
  inodes : Nat
deriving DecidableEq, Repr

/-- `SuperBlock` from `src/lib.rs` (the fields `load_inode` consumes). -/
structure SuperBlock : Type where
  block_size : Nat
  inode_size : Nat
  inodes_per_group : Nat
  groups : List BlockGroup
deriving DecidableEq, Repr

/-- The locating portion of `SuperBlock::load_inode` (`src/lib.rs` lines
483-499): `assert_ne!(0, inode)`; `group = (inode-1) / inodes_per_group`
(indexing out of range of the group vector would also abort); `index =
(inode-1) % inodes_per_group`; `assert!(index < group.inodes)`; on success
the absolute parse position is
`group.inode_table_block * block_size + index * inode_size`. -/
def load_inode_pos (sb : SuperBlock) (inode : Nat) : Outcome Nat :=
  if inode = 0 then Outcome.panicked
  else
    let i := inode - 1
    let group_number := i / sb.inodes_per_group
    match sb.groups[group_number]? with
    | none => Outcome.panicked
    | some group =>
      let inode_index_in_group := i % sb.inodes_per_group
      if inode_index_in_group < group.inodes then
        Outcome.ok (group.inode_table_block * sb.block_size
          + inode_index_in_group * sb.inode_size)
      else Outcome.panicked

/-- The superblock fields consumed by the validation portion of
`superblock` (`src/parse.rs` lines 96-215; `SuperBlock::load` in
`src/lib.rs` is identical). -/
structure SbFields : Type where
  s_magic : Nat
  s_state : Nat
  s_creator_os : Nat
  s_rev_level : Nat
  s_inodes_per_group : Nat
  s_feature_incompat : Nat
  s_log_block_size : Nat
  s_desc_size : Nat
deriving DecidableEq, Repr

/-- The union of all `IncompatibleFeature` bits declared by the
`bitflags!` block (`from_bits` returns `None` for anything outside it). -/
def INCOMPAT_DEFINED : Nat := 0x1F7DF

/-- `FILETYPE | EXTENTS | FLEX_BG | INCOMPAT_64BIT`, the accepted set. -/
def INCOMPAT_SUPPORTED : Nat := 0x2C2

/-- `INCOMPAT_64BIT`. -/
def INCOMPAT_64BIT : Nat := 0x80

/-- `block_size` decoding from `s_log_block_size` (`src/parse.rs` lines
199-207): `0 ↦ 1024`, `1 ↦ 2048`, `2 ↦ 4096`, `6 ↦ 65536`, else error. -/
def decode_block_size (log : Nat) : Option Nat :=
  match log with
  | 0 => some 1024
  | 1 => some 2048
  | 2 => some 4096
  | 6 => some 65536
  | _ => none

/-- The validation portion of `superblock` (`src/parse.rs` lines 96-215),
in source order: `IncompatibleFeature::from_bits` (`None` on undefined
bits), unsupported-incompat intersection, magic, creator OS, clean state,
nonzero `inodes_per_group`, block-size decode, then
`assert_eq!(0, s_desc_size)` when `INCOMPAT_64BIT` is absent (an abort,
not an error), and finally `rev_level == 1`.  On success returns the
decoded block size. -/
def superblock_check (f : SbFields) : Outcome Nat :=
  let incompat := f.s_feature_incompat % 2 ^ 32
  if incompat &&& (0xFFFFFFFF ^^^ INCOMPAT_DEFINED) ≠ 0 then Outcome.error Err.unknownFeature
  else if incompat &&& (INCOMPAT_DEFINED ^^^ INCOMPAT_SUPPORTED) ≠ 0 then
    Outcome.error Err.unsupportedFeature
  else if f.s_magic % 2 ^ 16 ≠ 0xEF53 then Outcome.error Err.badMagic
  else if f.s_creator_os % 2 ^ 32 ≠ 0 then Outcome.error Err.nonLinuxCreator
  else if f.s_state % 2 ^ 16 &&& 0b01 = 0 ∨ f.s_state % 2 ^ 16 &&& 0b10 ≠ 0 then
    Outcome.error Err.uncleanState
  else if f.s_inodes_per_group % 2 ^ 32 = 0 then Outcome.error Err.zeroInodesPerGroup
  else
    match decode_block_size (f.s_log_block_size % 2 ^ 32) with
    | none => Outcome.error Err.badBlockSize
    | some bs =>
      if incompat &&& INCOMPAT_64BIT = 0 ∧ f.s_desc_size % 2 ^ 16 ≠ 0 then Outcome.panicked
      else if f.s_rev_level % 2 ^ 32 ≠ 1 then Outcome.error Err.badRevLevel
      else Outcome.ok bs

/-- Logical block `b` is mapped by extent `e`. -/
def covers (e : Extent) (b : Nat) : Prop := e.part ≤ b ∧ b < e.part + e.len

instance (e : Extent) (b : Nat) : Decidable (covers e b) := by
  unfold covers; infer_instance

/-- The gap (in blocks) from `bi` to the first listed extent starting
above `bi`, or `u32::MAX` when no extent starts above `bi` — the value
`find_part` reports for an unmapped block. -/
def gap_blocks (bi : Nat) (l : List Extent) : Nat :=
  match l.find? (fun e => decide (bi < e.part)) with
  | some e => e.part - bi
  | none => 2 ^ 32 - 1

instance : IsTotal Extent fun a b => a.part ≤ b.part := ⟨fun a b => Nat.le_total _ _⟩

instance : IsTrans Extent fun a b => a.part ≤ b.part := ⟨fun _ _ _ => Nat.le_trans⟩

/-! Concrete fixtures (images, readers, nodes) used to instantiate the
theorems below. -/

/-- An image whose byte at address `a` is `a` (truncation aside), reads
always succeeding — the image of the repository's `simple_tree` test. -/
def discId : Disc where
  readAt := fun a n => Except.ok ((List.range n).map (a + ·))
  readAt_len := by intro a n l h; cases h; simp
  readAtRaw := fun a n => Except.ok ((List.range n).map (a + ·))
  readAtRaw_len := by intro a n l h; cases h; simp

/-- An image accessor whose every read fails with `io 7`. -/
def discFail : Disc where
  readAt := fun _ _ => Except.error (Err.io 7)
  readAt_len := by intro a n l h; cases h
  readAtRaw := fun _ _ => Except.error (Err.io 7)
  readAtRaw_len := by intro a n l h; cases h

/-- The identity (no-op) page decryption hook. -/
def cryptoId : CryptoM where
  decrypt_page := fun p _ _ _ => Except.ok p
  decrypt_len := by intro p o a i l h; cases h; rfl

/-- A page decryption hook whose every call fails with `decryptFailed 3`. -/
def cryptoFail : CryptoM where
  decrypt_page := fun _ _ _ _ => Except.error (Err.decryptFailed 3)
  decrypt_len := by intro p o a i l h; cases h

/-- Spec boundary scenario 3 (partial final block): block size 4, size 3,
one extent `(logical 0, phys 10, len 1)`. -/
def rEx3 : TreeReader :=
  { pos := 0, len := 3, block_size := 4, extents := [⟨0, 10, 1⟩],
    encrypted := false, ino := 0 }

/-- Spec boundary scenario 2 (sparse gap): block size 4, size 16, extents
`(0,10,1)` and `(2,20,1)`; logical blocks 1 and 3 are holes. -/
def rExS : TreeReader :=
  { pos := 0, len := 16, block_size := 4, extents := [⟨0, 10, 1⟩, ⟨2, 20, 1⟩],
    encrypted := false, ino := 0 }

/-- The scenario-2 reader positioned at byte 4 (logical block 1, a hole). -/
def rExS4 : TreeReader :=
  { pos := 4, len := 16, block_size := 4, extents := [⟨0, 10, 1⟩, ⟨2, 20, 1⟩],
    encrypted := false, ino := 0 }

/-- An encrypted-file reader over one extent (for the decrypt-error path). -/
def rEnc : TreeReader :=
  { pos := 0, len := 3, block_size := 4, extents := [⟨0, 10, 1⟩],
    encrypted := true, ino := 5 }

/-- A `load_block` closure that always fails (never reached at depth 0). -/
def loadNoneEx : Nat → Except Err (List Nat) := fun _ => Except.error (Err.io 0)

/-- A 60-byte inline extent root: depth 0, one leaf entry with
`ee_block = 0`, `ee_len = 1`, `ee_start_hi = 1`, `ee_start_lo = 0`. -/
def core1 : List Nat :=
  [0x0a, 0xf3, 1, 0, 0, 0, 0, 0, 0, 0, 0, 0,
   0, 0, 0, 0, 1, 0, 1, 0, 0, 0, 0, 0] ++ List.replicate 36 0

/-- A 60-byte inline extent root: depth 0, two overlapping leaf entries
`(block 0, len 2, start 10)` and `(block 1, len 2, start 20)`. -/
def core2 : List Nat :=
  [0x0a, 0xf3, 2, 0, 0, 0, 0, 0, 0, 0, 0, 0,
   0, 0, 0, 0, 2, 0, 0, 0, 10, 0, 0, 0,
   1, 0, 0, 0, 2, 0, 0, 0, 20, 0, 0, 0] ++ List.replicate 24 0

/-- The extent list `load_extent_tree` produces from `core2`. -/
def overlapEx : List Extent := [⟨0, 10, 2⟩, ⟨1, 20, 2⟩]

/-- A 16-byte extent node (depth 0, zero entries) whose trailing 4
checksum bytes are `FF FF FF FF`, which does not match the CRC32C of its
first 12 bytes under seed 0. -/
def dataC6 : List Nat :=
  [0x0a, 0xf3, 0, 0, 0, 0, 0, 0, 0, 0, 0, 0, 0xFF, 0xFF, 0xFF, 0xFF]

/-- A superblock with two inodes per group and one group holding a single
used inode. -/
def sbEx4 : SuperBlock := ⟨1024, 256, 2, [⟨100, 1⟩]⟩

/-- Superblock fields that pass every validation except that `desc_size`
is nonzero while `INCOMPAT_64BIT` is absent (incompat = FILETYPE|EXTENTS,
magic good, Linux, clean, 8192 inodes/group, 1024-byte blocks, rev 1). -/
def sbFieldsDescEx : SbFields := ⟨0xEF53, 1, 0, 1, 8192, 0x42, 0, 32⟩

/-- The early (pre-`desc_size`-assertion) error conditions of
`superblock_check`, in the disjunction the claim enumerates: bad incompat
set, bad magic, non-Linux creator, unclean state, zero inodes per group,
unsupported block-size exponent. -/
def sb_early_err (f : SbFields) : Prop :=
  f.s_feature_incompat % 2 ^ 32 &&& (0xFFFFFFFF ^^^ INCOMPAT_DEFINED) ≠ 0 ∨
  f.s_feature_incompat % 2 ^ 32 &&& (INCOMPAT_DEFINED ^^^ INCOMPAT_SUPPORTED) ≠ 0 ∨
  f.s_magic % 2 ^ 16 ≠ 0xEF53 ∨
  f.s_creator_os % 2 ^ 32 ≠ 0 ∨
  (f.s_state % 2 ^ 16 &&& 0b01 = 0 ∨ f.s_state % 2 ^ 16 &&& 0b10 ≠ 0) ∨
  f.s_inodes_per_group % 2 ^ 32 = 0 ∨
  decode_block_size (f.s_log_block_size % 2 ^ 32) = none

/-- The `assert_eq!(0, s_desc_size)` abort condition: `desc_size` nonzero
while `INCOMPAT_64BIT` is absent. -/
def sb_desc_panic (f : SbFields) : Prop :=
  f.s_feature_incompat % 2 ^ 32 &&& INCOMPAT_64BIT = 0 ∧ f.s_desc_size % 2 ^ 16 ≠ 0

/-! ## Theorems -/

/-- C1.  The claim says a materialised leaf extent has
`phys_start = start_lo + start_hi * 2^32`; the code (`src/extents.rs`
line 243, and identically `src/lib.rs` line 647) computes
`start_lo + 0x1000 * start_hi`, a shift by 12 bits instead of 32 — even
though the sibling index-entry parse three lines below does use `<< 32`.
At a leaf entry with `start_hi = 1` and `start_lo = 0` the materialised
start is `0x1000 = 4096`, not `2^32` as the claim (and the ext4 on-disk
format) requires. -/
theorem c1_leaf_start_shifted_12_not_32 :
    load_extent_tree loadNoneEx false core1 none =
      Except.ok [{ part := 0, start := 0x1000, len := 1 }] ∧
    ({ part := 0, start := 0x1000, len := 1 } : Extent).start ≠ 0 + 1 * 2 ^ 32 := by
  constructor
  · rfl
  · decide

/-- `check_header` ignores the checksum when verification is disabled:
with `verify = false` a supplied seed behaves exactly like no seed. -/
theorem check_header_noverify (data : List Nat) (ed : Nat) (s : Nat) (first : Bool) :
    check_header data ed (some s) first false = check_header data ed none first false := by
  unfold check_header
  cases first <;> simp

/-- `go_children` only depends on the recursion function pointwise. -/
theorem go_children_congr (load : Nat → Except Err (List Nat))
    (f g : List Nat → Except Err (List Extent)) (data : List Nat)
    (hfg : ∀ d, f d = g d) :
    ∀ fuel en, go_children load f data fuel en = go_children load g data fuel en := by
  intro fuel
  induction fuel with
  | zero => intro en; rfl
  | succ k ih =>
    intro en
    simp only [go_children, hfg, ih]

/-- With checksum verification disabled, `add_found_extents` never looks
at the checksum: a supplied seed gives the same result as none, at every
node of the tree. -/
theorem add_found_extents_noverify (load : Nat → Except Err (List Nat)) (s : Nat) :
    ∀ ed data first, add_found_extents load false (some s) ed data first =
      add_found_extents load false none ed data first := by
  intro ed
  induction ed with
  | zero =>
    intro data first
    unfold add_found_extents
    rw [check_header_noverify]
  | succ d ih =>
    intro data first
    unfold add_found_extents
    rw [check_header_noverify]
    cases check_header data (d + 1) none first false with
    | error e => rfl
    | ok n => exact go_children_congr load _ _ data (fun c => ih c false) n 0

/-- C6.  For a non-root extent node whose magic and depth pass but whose
trailing 4 bytes differ from the seeded CRC32C of the preceding bytes:
with verification enabled the node fails with the checksum-mismatch
error; with verification disabled the seed is ignored entirely (the node
— and the whole subtree — parses exactly as it would without a seed, so
a depth-0 node yields the extent list implied by its entries); and the
inline root (`first_level = true`) is never checksummed: a mismatched
depth-0 root still yields its entries under either policy. -/
theorem c6_checksum_policy (load : Nat → Except Err (List Nat)) (seed ed : Nat)
    (data : List Nat) (verify : Bool)
    (hmagic : byteAt data 0 = 0x0a ∧ byteAt data 1 = 0xf3)
    (hdepth : read_le16 data 6 = ed)
    (hmm : ext4_style_crc32c_le seed (data.take (data.length - 4)) ≠
      read_le32 data (data.length - 4)) :
    add_found_extents load true (some seed) ed data false =
      Except.error Err.checksumMismatch ∧
    add_found_extents load false (some seed) ed data false =
      add_found_extents load false none ed data false ∧
    (ed = 0 → add_found_extents load verify (some seed) 0 data true =
      Except.ok (parseLeafEntries data (read_le16 data 2))) := by
  have hch : check_header data ed (some seed) false true =
      Except.error Err.checksumMismatch := by
    simp only [check_header]
    rw [if_pos hmagic, if_pos hdepth, if_pos ⟨hmm, trivial⟩]
  refine ⟨?_, add_found_extents_noverify load seed ed data false, ?_⟩
  · cases ed <;> (unfold add_found_extents; rw [hch])
  · intro h0
    subst h0
    have hroot : check_header data 0 (some seed) true verify = Except.ok (read_le16 data 2) := by
      simp only [check_header]
      rw [if_pos hmagic, if_pos hdepth]
    unfold add_found_extents
    rw [hroot]

set_option maxRecDepth 4000 in
/-- Witness for C6 at a concrete 16-byte depth-0 node with a corrupted
trailing checksum under seed 0. -/
theorem c6_checksum_policy_witness :
    add_found_extents loadNoneEx true (some 0) 0 dataC6 false =
      Except.error Err.checksumMismatch ∧
    add_found_extents loadNoneEx false (some 0) 0 dataC6 false =
      add_found_extents loadNoneEx false none 0 dataC6 false ∧
    ((0 : Nat) = 0 → add_found_extents loadNoneEx true (some 0) 0 dataC6 true =
      Except.ok (parseLeafEntries dataC6 (read_le16 dataC6 2))) :=
  c6_checksum_policy loadNoneEx 0 0 dataC6 true (by decide) (by decide) (by decide)

/-- C3 (amended part).  Every successfully loaded extent list is sorted
by logical block: `load_extent_tree` ends with a stable sort on `part`. -/
theorem c3_loaded_extents_sorted (load : Nat → Except Err (List Nat)) (verify : Bool)
    (core : List Nat) (csum : Option Nat) (l : List Extent)
    (h : load_extent_tree load verify core csum = Except.ok l) :
    List.Pairwise (fun a b : Extent => a.part ≤ b.part) l := by
  unfold load_extent_tree at h
  split at h
  · split at h
    · cases hadd : add_found_extents load verify csum (read_le16 core 6) core true with
      | error e => rw [hadd] at h; cases h
      | ok extents =>
        rw [hadd] at h
        cases h
        exact List.sorted_insertionSort (fun a b : Extent => a.part ≤ b.part) extents
    · cases h
  · cases h

/-- C3 counterexample.  The claim also asserts pairwise non-overlap
(`part + len ≤ next.part`), but nothing rejects overlapping entries: the
root `core2` holds entries `(0, len 2)` and `(1, len 2)`, loads
successfully, and the sorted output violates non-overlap at its first
adjacent pair. -/
theorem c3_overlap_not_rejected :
    load_extent_tree loadNoneEx false core2 none = Except.ok overlapEx ∧
    ¬ List.Pairwise (fun a b : Extent => a.part + a.len ≤ b.part) overlapEx := by
  constructor
  · rfl
  · intro h
    have := List.rel_of_pairwise_cons h (List.mem_singleton.mpr rfl)
    simp [overlapEx] at this

/-- Witness for C3 at the concrete root `core2`. -/
theorem c3_loaded_extents_sorted_witness :
    List.Pairwise (fun a b : Extent => a.part ≤ b.part) overlapEx :=
  c3_loaded_extents_sorted loadNoneEx false core2 none overlapEx rfl

/-- C4 (amended).  For inode number `N ≥ 1` whose group index is in
range, the locator computes `group = (N-1) / inodes_per_group` and
`index = (N-1) mod inodes_per_group`; when `index < group.used_inodes` it
parses at `group.inode_table_block * block_size + index * inode_size`,
and when `index ≥ group.used_inodes` it aborts on `assert!` — it does not
return a caller-distinguishable error. -/
theorem c4_load_inode_locates (sb : SuperBlock) (inode : Nat) (group : BlockGroup)
    (h1 : 1 ≤ inode)
    (hg : sb.groups[(inode - 1) / sb.inodes_per_group]? = some group) :
    ((inode - 1) % sb.inodes_per_group < group.inodes →
      load_inode_pos sb inode = Outcome.ok (group.inode_table_block * sb.block_size
        + (inode - 1) % sb.inodes_per_group * sb.inode_size)) ∧
    (group.inodes ≤ (inode - 1) % sb.inodes_per_group →
      load_inode_pos sb inode = Outcome.panicked) := by
  have hne : ¬ inode = 0 := by omega
  constructor
  · intro hlt
    simp only [load_inode_pos, hg]
    rw [if_neg hne, if_pos hlt]
  · intro hge
    simp only [load_inode_pos, hg]
    rw [if_neg hne, if_neg (by omega : ¬ (inode - 1) % sb.inodes_per_group < group.inodes)]

/-- C4 counterexample.  On `sbEx4` (2 inodes per group, group 0 has one
used inode), inode 2 has `index = 1 ≥ used_inodes = 1`: the claim says a
distinguishable `InodeOutOfRange` error is returned, but the call aborts
(`assert!` panic) and returns no error value at all. -/
theorem c4_out_of_range_panics :
    load_inode_pos sbEx4 2 = Outcome.panicked ∧
    ∀ e, load_inode_pos sbEx4 2 ≠ Outcome.error e := by
  refine ⟨rfl, ?_⟩
  intro e h
  exact Outcome.noConfusion h

/-- Witness for C4 at `sbEx4`: inode 1 resolves to position
`100 * 1024 + 0 * 256`, inode 2 aborts. -/
theorem c4_load_inode_locates_witness :
    load_inode_pos sbEx4 1 = Outcome.ok 102400 ∧
    load_inode_pos sbEx4 2 = Outcome.panicked := by
  constructor
  · exact ((c4_load_inode_locates sbEx4 1 ⟨100, 1⟩ (by decide) (by decide)).1 (by decide))
  · exact ((c4_load_inode_locates sbEx4 2 ⟨100, 1⟩ (by decide) (by decide)).2 (by decide))

/-- When one of the early error conditions holds, `superblock_check`
returns some error. -/
theorem sb_check_early (f : SbFields) (h : sb_early_err f) :
    ∃ e, superblock_check f = Outcome.error e := by
  unfold sb_early_err at h
  by_cases h1 : f.s_feature_incompat % 2 ^ 32 &&& (0xFFFFFFFF ^^^ INCOMPAT_DEFINED) ≠ 0
  · exact ⟨Err.unknownFeature, by simp only [superblock_check]; rw [if_pos h1]⟩
  by_cases h2 : f.s_feature_incompat % 2 ^ 32 &&& (INCOMPAT_DEFINED ^^^ INCOMPAT_SUPPORTED) ≠ 0
  · exact ⟨Err.unsupportedFeature, by simp only [superblock_check]; rw [if_neg h1, if_pos h2]⟩
  by_cases h3 : f.s_magic % 2 ^ 16 ≠ 0xEF53
  · exact ⟨Err.badMagic, by
      simp only [superblock_check]; rw [if_neg h1, if_neg h2, if_pos h3]⟩
  by_cases h4 : f.s_creator_os % 2 ^ 32 ≠ 0
  · exact ⟨Err.nonLinuxCreator, by
      simp only [superblock_check]; rw [if_neg h1, if_neg h2, if_neg h3, if_pos h4]⟩
  by_cases h5 : f.s_state % 2 ^ 16 &&& 0b01 = 0 ∨ f.s_state % 2 ^ 16 &&& 0b10 ≠ 0
  · exact ⟨Err.uncleanState, by
      simp only [superblock_check]; rw [if_neg h1, if_neg h2, if_neg h3, if_neg h4, if_pos h5]⟩
  by_cases h6 : f.s_inodes_per_group % 2 ^ 32 = 0
  · exact ⟨Err.zeroInodesPerGroup, by
      simp only [superblock_check]
      rw [if_neg h1, if_neg h2, if_neg h3, if_neg h4, if_neg h5, if_pos h6]⟩
  have hbs : decode_block_size (f.s_log_block_size % 2 ^ 32) = none := by tauto
  refine ⟨Err.badBlockSize, ?_⟩
  simp only [superblock_check, hbs]
  rw [if_neg h1, if_neg h2, if_neg h3, if_neg h4, if_neg h5, if_neg h6]

/-- The negated components of `sb_early_err`, one per validation. -/
theorem sb_early_components (f : SbFields) (hne : ¬ sb_early_err f) :
    ¬ f.s_feature_incompat % 2 ^ 32 &&& (0xFFFFFFFF ^^^ INCOMPAT_DEFINED) ≠ 0 ∧
    ¬ f.s_feature_incompat % 2 ^ 32 &&& (INCOMPAT_DEFINED ^^^ INCOMPAT_SUPPORTED) ≠ 0 ∧
    ¬ f.s_magic % 2 ^ 16 ≠ 0xEF53 ∧
    ¬ f.s_creator_os % 2 ^ 32 ≠ 0 ∧
    ¬ (f.s_state % 2 ^ 16 &&& 0b01 = 0 ∨ f.s_state % 2 ^ 16 &&& 0b10 ≠ 0) ∧
    ¬ f.s_inodes_per_group % 2 ^ 32 = 0 ∧
    ¬ decode_block_size (f.s_log_block_size % 2 ^ 32) = none := by
  unfold sb_early_err at hne
  tauto

/-- When no early error condition holds, the block size decodes. -/
theorem sb_check_decodes (f : SbFields) (hne : ¬ sb_early_err f) :
    ∃ bs, decode_block_size (f.s_log_block_size % 2 ^ 32) = some bs := by
  unfold sb_early_err at hne
  cases hd : decode_block_size (f.s_log_block_size % 2 ^ 32) with
  | none => exact absurd (by tauto) hne
  | some bs => exact ⟨bs, rfl⟩

/-- When the early conditions pass and the `desc_size` condition holds,
`superblock_check` aborts. -/
theorem sb_check_panic (f : SbFields) (hne : ¬ sb_early_err f) (hd : sb_desc_panic f) :
    superblock_check f = Outcome.panicked := by
  obtain ⟨bs, hbs⟩ := sb_check_decodes f hne
  obtain ⟨h1, h2, h3, h4, h5, h6, -⟩ := sb_early_components f hne
  unfold sb_desc_panic at hd
  simp only [superblock_check, hbs]
  rw [if_neg h1, if_neg h2, if_neg h3, if_neg h4, if_neg h5, if_neg h6, if_pos hd]

/-- When the early conditions pass, the `desc_size` assertion does not
fire, and `rev_level ≠ 1`, `superblock_check` errors with the rev-level
error. -/
theorem sb_check_rev (f : SbFields) (hne : ¬ sb_early_err f) (hnd : ¬ sb_desc_panic f)
    (hrev : f.s_rev_level % 2 ^ 32 ≠ 1) :
    superblock_check f = Outcome.error Err.badRevLevel := by
  obtain ⟨bs, hbs⟩ := sb_check_decodes f hne
  obtain ⟨h1, h2, h3, h4, h5, h6, -⟩ := sb_early_components f hne
  unfold sb_desc_panic at hnd
  simp only [superblock_check, hbs]
  rw [if_neg h1, if_neg h2, if_neg h3, if_neg h4, if_neg h5, if_neg h6, if_neg hnd,
    if_pos hrev]

/-- When all eight conditions are absent, `superblock_check` succeeds. -/
theorem sb_check_ok (f : SbFields) (hne : ¬ sb_early_err f) (hnd : ¬ sb_desc_panic f)
    (hrev : f.s_rev_level % 2 ^ 32 = 1) :
    ∃ bs, superblock_check f = Outcome.ok bs := by
  obtain ⟨bs, hbs⟩ := sb_check_decodes f hne
  obtain ⟨h1, h2, h3, h4, h5, h6, -⟩ := sb_early_components f hne
  unfold sb_desc_panic at hnd
  refine ⟨bs, ?_⟩
  simp only [superblock_check, hbs]
  rw [if_neg h1, if_neg h2, if_neg h3, if_neg h4, if_neg h5, if_neg h6, if_neg hnd,
    if_neg (not_ne_iff.mpr hrev)]

/-- C5 (amended).  The superblock validation returns a distinguishable
error exactly when one of the early conditions holds (bad incompat set,
bad magic, non-Linux creator, unclean state, zero inodes-per-group, bad
block-size exponent) or when all of those pass, the `desc_size` assertion
does not fire, and `rev_level ≠ 1`; it aborts (assertion failure, not an
error) exactly when the early conditions all pass and `desc_size` is
nonzero without `INCOMPAT_64BIT`; and it succeeds exactly when none of
the claim's eight conditions holds. -/
theorem c5_superblock_validation (f : SbFields) :
    ((∃ e, superblock_check f = Outcome.error e) ↔
      (sb_early_err f ∨ (¬ sb_early_err f ∧ ¬ sb_desc_panic f ∧ f.s_rev_level % 2 ^ 32 ≠ 1))) ∧
    (superblock_check f = Outcome.panicked ↔ (¬ sb_early_err f ∧ sb_desc_panic f)) ∧
    ((∃ bs, superblock_check f = Outcome.ok bs) ↔
      (¬ sb_early_err f ∧ ¬ sb_desc_panic f ∧ f.s_rev_level % 2 ^ 32 = 1)) := by
  by_cases he : sb_early_err f
  · obtain ⟨e, hee⟩ := sb_check_early f he
    refine ⟨⟨fun _ => Or.inl he, fun _ => ⟨e, hee⟩⟩, ?_, ?_⟩
    · constructor
      · intro hp
        rw [hee] at hp
        exact Outcome.noConfusion hp
      · intro ⟨hne, _⟩
        exact absurd he hne
    · constructor
      · intro ⟨bs, hb⟩
        rw [hee] at hb
        exact Outcome.noConfusion hb
      · intro ⟨hne, _⟩
        exact absurd he hne
  · by_cases hd : sb_desc_panic f
    · have hp := sb_check_panic f he hd
      refine ⟨?_, ⟨fun _ => ⟨he, hd⟩, fun _ => hp⟩, ?_⟩
      · constructor
        · intro ⟨e, hee⟩
          rw [hp] at hee
          exact Outcome.noConfusion hee
        · intro hcase
          rcases hcase with h | ⟨_, hnd, _⟩
          · exact absurd h he
          · exact absurd hd hnd
      · constructor
        · intro ⟨bs, hb⟩
          rw [hp] at hb
          exact Outcome.noConfusion hb
        · intro ⟨_, hnd, _⟩
          exact absurd hd hnd
    · by_cases hrev : f.s_rev_level % 2 ^ 32 = 1
      · obtain ⟨bs, hok⟩ := sb_check_ok f he hd hrev
        refine ⟨?_, ?_, ⟨fun _ => ⟨he, hd, hrev⟩, fun _ => ⟨bs, hok⟩⟩⟩
        · constructor
          · intro ⟨e, hee⟩
            rw [hok] at hee
            exact Outcome.noConfusion hee
          · intro hcase
            rcases hcase with h | ⟨_, _, hne⟩
            · exact absurd h he
            · exact absurd hrev hne
        · constructor
          · intro hp
            rw [hok] at hp
            exact Outcome.noConfusion hp
          · intro ⟨_, hdp⟩
            exact absurd hdp hd
      · have herr := sb_check_rev f he hd hrev
        refine ⟨⟨fun _ => Or.inr ⟨he, hd, hrev⟩, fun _ => ⟨_, herr⟩⟩, ?_, ?_⟩
        · constructor
          · intro hp
            rw [herr] at hp
            exact Outcome.noConfusion hp
          · intro ⟨_, hdp⟩
            exact absurd hdp hd
        · constructor
          · intro ⟨bs, hb⟩
            rw [herr] at hb
            exact Outcome.noConfusion hb
          · intro ⟨_, _, h1⟩
            exact absurd h1 hrev

/-- C5 counterexample.  `sbFieldsDescEx` satisfies the claim's eighth
condition — `desc_size` nonzero while `INCOMPAT_64BIT` is absent — yet
the load aborts (`assert_eq!` failure, `src/parse.rs` line 210) instead
of returning a caller-distinguishable error. -/
theorem c5_desc_size_panics :
    superblock_check sbFieldsDescEx = Outcome.panicked ∧
    ∀ e, superblock_check sbFieldsDescEx ≠ Outcome.error e := by
  refine ⟨rfl, ?_⟩
  intro e h
  exact Outcome.noConfusion h

/-- C8.  Seek semantics: `Start(p)` sets `pos = p`; `Current(d)` sets
`pos = pos + d` (d may be negative); `End(n)` with `n ≥ 0` sets
`pos = size - n`; every successful seek leaves `pos ≤ size` and returns
the new position, so `seek(Start(p))` for `p ∈ [0, size]` yields `p`. -/
theorem c8_seek_semantics (r : TreeReader) (hlen : r.len < 2 ^ 63) (hpl : r.pos ≤ r.len) :
    (∀ p, p ≤ r.len → treeSeek r (SeekFrom.start p) = Outcome.ok (p, { r with pos := p })) ∧
    (∀ d : Int, 0 ≤ (r.pos : Int) + d → (r.pos : Int) + d ≤ (r.len : Int) →
      treeSeek r (SeekFrom.current d) =
        Outcome.ok (((r.pos : Int) + d).toNat, { r with pos := ((r.pos : Int) + d).toNat })) ∧
    (∀ n : Int, 0 ≤ n → n ≤ (r.len : Int) →
      treeSeek r (SeekFrom.fromEnd n) =
        Outcome.ok (r.len - n.toNat, { r with pos := r.len - n.toNat })) ∧
    (∀ s p' r', treeSeek r s = Outcome.ok (p', r') → p' ≤ r.len ∧ r'.pos = p') := by
  have hpos : r.pos < 2 ^ 63 := lt_of_le_of_lt hpl hlen
  have hlenI : (r.len : Int) < 2 ^ 63 := by exact_mod_cast hlen
  refine ⟨?_, ?_, ?_, ?_⟩
  · intro p hp
    simp only [treeSeek]
    rw [if_pos hp]
  · intro d h0 h1
    simp only [treeSeek]
    rw [if_pos hpos, if_neg (by omega : ¬ ((r.pos : Int) + d < -(2 ^ 63) ∨
      2 ^ 63 ≤ (r.pos : Int) + d)), if_pos h0,
      if_pos (by omega : ((r.pos : Int) + d).toNat ≤ r.len)]
  · intro n h0 h1
    simp only [treeSeek]
    rw [if_neg (by omega : ¬ n < 0), if_neg (by omega : ¬ r.len < n.toNat),
      if_pos (by omega : r.len - n.toNat ≤ r.len)]
  · intro s p' r'
    cases s with
    | start p =>
      simp only [treeSeek]
      split_ifs with h
      · intro heq
        cases heq
        exact ⟨h, rfl⟩
      · intro heq
        exact heq.elim
    | current d =>
      simp only [treeSeek]
      split_ifs with h1 h2 h3 h4
      · intro heq
        exact heq.elim
      · intro heq
        cases heq
        exact ⟨h3, rfl⟩
      · intro heq
        exact heq.elim
      · intro heq
        cases heq
        exact ⟨h4, rfl⟩
      · intro heq
        exact heq.elim
    | fromEnd n =>
      simp only [treeSeek]
      split_ifs with h1 h2 h3
      · intro heq
        exact heq.elim
      · intro heq
        exact heq.elim
      · intro heq
        cases heq
        exact ⟨h3, rfl⟩
      · intro heq
        exact heq.elim

/-- Witness for C8 on the scenario-1 reader: `Start(5)`, `Current(-3)`
from position 5, and `End(2)` land where the claim says. -/
theorem c8_seek_semantics_witness :
    treeSeek rExS (SeekFrom.start 5) = Outcome.ok (5, { rExS with pos := 5 }) ∧
    treeSeek { rExS with pos := 5 } (SeekFrom.current (-3)) =
      Outcome.ok (2, { rExS with pos := 2 }) ∧
    treeSeek rExS (SeekFrom.fromEnd 2) = Outcome.ok (14, { rExS with pos := 14 }) := by
  refine ⟨?_, ?_, ?_⟩
  · exact (c8_seek_semantics rExS (by decide) (by decide)).1 5 (by decide)
  · exact (c8_seek_semantics { rExS with pos := 5 } (by decide) (by decide)).2.1 (-3)
      (by decide) (by decide)
  · exact (c8_seek_semantics rExS (by decide) (by decide)).2.2.1 2 (by decide) (by decide)

/-- C9.  When a `read` call fails — an image read or a page decryption
returned an error — the error propagates out of that call and the reader
state (in particular its cursor `pos`) is exactly what it was before the
call, so a subsequent read behaves as if the failed call never
happened. -/
theorem c9_read_error_leaves_reader (disc : Disc) (crypto : CryptoM) (r : TreeReader)
    (bufLen : Nat) (e : Err) (r' : TreeReader)
    (h : treeRead disc crypto r bufLen = (Except.error e, r')) : r' = r := by
  simp only [treeRead] at h
  split at h
  · rw [Prod.mk.injEq] at h
    cases h.1
  · split at h
    · split at h
      · split at h
        · rw [Prod.mk.injEq] at h
          exact h.2.symm
        · rw [Prod.mk.injEq] at h
          cases h.1
      · rw [Prod.mk.injEq] at h
        cases h.1
    · rw [Prod.mk.injEq] at h
      exact h.2.symm

/-- Witness for C9: a failing page decryption on the encrypted reader
`rEnc` propagates `decryptFailed` and leaves the reader unchanged. -/
theorem c9_read_error_leaves_reader_witness :
    treeRead discId cryptoFail rEnc 4 = (Except.error (Err.decryptFailed 3), rEnc) ∧
    rEnc = rEnc :=
  ⟨rfl, c9_read_error_leaves_reader discId cryptoFail rEnc 4 (Err.decryptFailed 3) rEnc rfl⟩

/-- C10.  Seeking beyond the file size never returns an error value: the
`pos ≤ size` invariant is an `assert!`, so `Start(p)` with `p > size` (and
`Current(d)` overshooting the size) aborts; no branch of `seek` produces
an error; and the assertion never fires when the requested target is
within `[0, size]`. -/
theorem c10_seek_beyond_size_panics (r : TreeReader) (hlen : r.len < 2 ^ 63)
    (hpl : r.pos ≤ r.len) :
    (∀ p, r.len < p → treeSeek r (SeekFrom.start p) = Outcome.panicked) ∧
    (∀ d : Int, (r.len : Int) < (r.pos : Int) + d →
      treeSeek r (SeekFrom.current d) = Outcome.panicked) ∧
    (∀ s e, treeSeek r s ≠ Outcome.error e) ∧
    (∀ p, p ≤ r.len → treeSeek r (SeekFrom.start p) ≠ Outcome.panicked) := by
  have hpos : r.pos < 2 ^ 63 := lt_of_le_of_lt hpl hlen
  refine ⟨?_, ?_, ?_, ?_⟩
  · intro p hp
    simp only [treeSeek]
    rw [if_neg (by omega : ¬ p ≤ r.len)]
  · intro d hover
    simp only [treeSeek]
    rw [if_pos hpos]
    by_cases hov : (r.pos : Int) + d < -(2 ^ 63) ∨ 2 ^ 63 ≤ (r.pos : Int) + d
    · rw [if_pos hov]
    · rw [if_neg hov, if_pos (by omega : (0 : Int) ≤ (r.pos : Int) + d),
        if_neg (by omega : ¬ ((r.pos : Int) + d).toNat ≤ r.len)]
  · intro s e
    cases s <;> (simp only [treeSeek]; split_ifs <;> simp)
  · intro p hp
    simp only [treeSeek]
    rw [if_pos hp]
    simp

/-- Witness for C10 on the scenario-2 reader: `Start(17)` (beyond size
16) aborts, and `Start(16)` does not. -/
theorem c10_seek_beyond_size_panics_witness :
    treeSeek rExS (SeekFrom.start 17) = Outcome.panicked ∧
    treeSeek rExS (SeekFrom.start 16) ≠ Outcome.panicked := by
  constructor
  · exact (c10_seek_beyond_size_panics rExS (by decide) (by decide)).1 17 (by decide)
  · exact (c10_seek_beyond_size_panics rExS (by decide) (by decide)).2.2.2 16 (by decide)

/-- A `find_part` sparse result is always a positive gap. -/
theorem find_part_sparse_pos (bi : Nat) :
    ∀ l m, find_part bi l = FoundPart.sparse m → 0 < m := by
  intro l
  induction l with
  | nil =>
    intro m h
    simp only [find_part] at h
    cases h
    omega
  | cons e rest ih =>
    intro m h
    simp only [find_part] at h
    by_cases h1 : bi < e.part
    · rw [if_pos h1] at h
      cases h
      omega
    · rw [if_neg h1] at h
      by_cases h2 : bi ≥ e.part ∧ bi < e.part + e.len
      · rw [if_pos h2] at h
        cases h
      · rw [if_neg h2] at h
        exact ih m h

/-- A `find_part` mapped result covers the looked-up block. -/
theorem find_part_actual_covers (bi : Nat) :
    ∀ l e, find_part bi l = FoundPart.actual e → e.part ≤ bi ∧ bi < e.part + e.len := by
  intro l
  induction l with
  | nil =>
    intro e h
    simp only [find_part] at h
    cases h
  | cons e0 rest ih =>
    intro e h
    simp only [find_part] at h
    by_cases h1 : bi < e0.part
    · rw [if_pos h1] at h
      cases h
    · rw [if_neg h1] at h
      by_cases h2 : bi ≥ e0.part ∧ bi < e0.part + e0.len
      · rw [if_pos h2] at h
        cases h
        exact ⟨h2.1, h2.2⟩
      · rw [if_neg h2] at h
        exact ih e h

/-- When no extent covers `bi`, the scan reports the sparse gap
`gap_blocks bi l`. -/
theorem find_part_eq_sparse_gap (bi : Nat) :
    ∀ l, (∀ e ∈ l, ¬ covers e bi) → find_part bi l = FoundPart.sparse (gap_blocks bi l) := by
  intro l
  induction l with
  | nil => intro _; rfl
  | cons e0 rest ih =>
    intro hnc
    simp only [find_part]
    by_cases h1 : bi < e0.part
    · rw [if_pos h1]
      unfold gap_blocks
      rw [List.find?_cons_of_pos _ (by simpa using h1)]
    · have hno : ¬ covers e0 bi := hnc e0 (List.mem_cons_self e0 rest)
      have h2 : ¬ (bi ≥ e0.part ∧ bi < e0.part + e0.len) := fun hh => hno ⟨hh.1, hh.2⟩
      rw [if_neg h1, if_neg h2]
      have hg : gap_blocks bi (e0 :: rest) = gap_blocks bi rest := by
        unfold gap_blocks
        rw [List.find?_cons_of_neg _ (by simpa using h1)]
      rw [hg]
      exact ih fun e he => hnc e (List.mem_cons_of_mem _ he)

/-- On a list sorted by `part`, the reported gap is the gap to the
next-higher extent: it is at most the distance to any extent above
`bi`. -/
theorem gap_blocks_min (bi : Nat) :
    ∀ l, List.Pairwise (fun a b : Extent => a.part ≤ b.part) l →
      ∀ e ∈ l, bi < e.part → gap_blocks bi l ≤ e.part - bi := by
  intro l
  induction l with
  | nil =>
    intro _ e he
    cases he
  | cons e0 rest ih =>
    intro hp e he hbe
    by_cases h0 : bi < e0.part
    · unfold gap_blocks
      rw [List.find?_cons_of_pos _ (by simpa using h0)]
      dsimp only
      rcases List.mem_cons.mp he with rfl | hmem
      · omega
      · have := (List.pairwise_cons.mp hp).1 e hmem
        omega
    · have hg : gap_blocks bi (e0 :: rest) = gap_blocks bi rest := by
        unfold gap_blocks
        rw [List.find?_cons_of_neg _ (by simpa using h0)]
      rw [hg]
      rcases List.mem_cons.mp he with rfl | hmem
      · omega
      · exact ih (List.pairwise_cons.mp hp).2 e hmem hbe

/-- When no extent starts above `bi`, the reported gap is `u32::MAX`. -/
theorem gap_blocks_of_no_next (bi : Nat) (l : List Extent)
    (hno : ∀ e ∈ l, ¬ bi < e.part) : gap_blocks bi l = 2 ^ 32 - 1 := by
  unfold gap_blocks
  rw [List.find?_eq_none.mpr fun e he => by simpa using hno e he]

/-- C7.  A read at an unmapped `block_index = pos / block_size` writes
exactly `min(min(gap_blocks · block_size, buf.len), size - pos)` zero
bytes and advances `pos` by that amount; on the sorted extent list
`gap_blocks` is `next_logical - block_index` for the next-higher extent
(it is a lower bound on every extent above `block_index`), and
`u32::MAX = 2^32 - 1` when no further extent exists. -/
theorem c7_sparse_gap_read (disc : Disc) (crypto : CryptoM) (r : TreeReader) (bufLen : Nat)
    (h32 : r.pos / r.block_size < 2 ^ 32)
    (hnc : ∀ e ∈ r.extents, ¬ covers e (r.pos / r.block_size))
    (hsorted : List.Pairwise (fun a b : Extent => a.part ≤ b.part) r.extents) :
    treeRead disc crypto r bufLen =
      (Except.ok (List.replicate
          (min (min (gap_blocks (r.pos / r.block_size) r.extents * r.block_size) bufLen)
            (r.len - r.pos)) 0),
        { r with pos := (r.pos +
          min (min (gap_blocks (r.pos / r.block_size) r.extents * r.block_size) bufLen)
            (r.len - r.pos)) }) ∧
    (∀ e ∈ r.extents, r.pos / r.block_size < e.part →
      gap_blocks (r.pos / r.block_size) r.extents ≤ e.part - r.pos / r.block_size) ∧
    ((∀ e ∈ r.extents, ¬ r.pos / r.block_size < e.part) →
      gap_blocks (r.pos / r.block_size) r.extents = 2 ^ 32 - 1) := by
  refine ⟨?_, gap_blocks_min _ _ hsorted, gap_blocks_of_no_next _ _⟩
  have hfp := find_part_eq_sparse_gap (r.pos / r.block_size) r.extents hnc
  by_cases hb : bufLen = 0
  · subst hb
    simp only [treeRead, if_pos rfl]
    have hz : min (min (gap_blocks (r.pos / r.block_size) r.extents * r.block_size) 0)
        (r.len - r.pos) = 0 := by omega
    rw [hz]
    simp
  · simp only [treeRead]
    rw [if_neg hb, if_pos h32, hfp]

/-- Witness for C7 at the scenario-2 reader positioned in the hole at
logical block 1: the next extent starts at block 2, so four zero bytes
are produced and the cursor moves from 4 to 8. -/
theorem c7_sparse_gap_read_witness :
    treeRead discId cryptoId rExS4 100 =
      (Except.ok (List.replicate
          (min (min (gap_blocks (rExS4.pos / rExS4.block_size) rExS4.extents * rExS4.block_size)
            100) (rExS4.len - rExS4.pos)) 0),
        { rExS4 with pos := (rExS4.pos +
          min (min (gap_blocks (rExS4.pos / rExS4.block_size) rExS4.extents * rExS4.block_size)
            100) (rExS4.len - rExS4.pos)) }) :=
  (c7_sparse_gap_read discId cryptoId rExS4 100 (by decide) (by decide) (by decide)).1

/-- The page production step of the read loop yields a page of exactly
`block_size` bytes (Rust's `read_exact` fills the buffer; decryption is
in place). -/
theorem readPage_length (disc : Disc) (crypto : CryptoM) (enc : Bool) (ino bs a lo : Nat)
    (page : List Nat)
    (h : (if enc then
        match disc.readAtRaw a bs with
        | Except.error e => Except.error e
        | Except.ok page => crypto.decrypt_page page (lo) a ino
      else disc.readAt a bs) = Except.ok page) : page.length = bs := by
  split at h
  · cases hr : disc.readAtRaw a bs with
    | error e =>
      rw [hr] at h
      cases h
    | ok p =>
      rw [hr] at h
      exact (crypto.decrypt_len p lo a ino page h).trans (disc.readAtRaw_len a bs p hr)
  · exact disc.readAt_len a bs page h

/-- The read loop never produces more than the output capacity. -/
theorem readExtentLoop_length_le (disc : Disc) (crypto : CryptoM) (enc : Bool)
    (ino bs : Nat) (ext : Extent) (output_len : Nat) :
    ∀ fuel bi off acc out, acc.length ≤ output_len →
      readExtentLoop disc crypto enc ino bs ext output_len fuel bi off acc = Except.ok out →
      out.length ≤ output_len := by
  intro fuel
  induction fuel with
  | zero =>
    intro bi off acc out hle h
    cases h
    exact hle
  | succ k ih =>
    intro bi off acc out hle h
    simp only [readExtentLoop] at h
    split at h
    · cases h
    · split at h
      · next hfull =>
        cases h
        omega
      · refine ih (bi + 1) 0 _ out ?_ h
        simp only [List.length_append, List.length_take, List.length_drop]
        omega

/-- The read loop only appends to its accumulator. -/
theorem readExtentLoop_length_ge (disc : Disc) (crypto : CryptoM) (enc : Bool)
    (ino bs : Nat) (ext : Extent) (output_len : Nat) :
    ∀ fuel bi off acc out,
      readExtentLoop disc crypto enc ino bs ext output_len fuel bi off acc = Except.ok out →
      acc.length ≤ out.length := by
  intro fuel
  induction fuel with
  | zero =>
    intro bi off acc out h
    cases h
    exact le_refl _
  | succ k ih =>
    intro bi off acc out h
    simp only [readExtentLoop] at h
    split at h
    · cases h
    · split at h
      · cases h
        simp
      · have := ih (bi + 1) 0 _ out h
        simp only [List.length_append] at this
        omega

/-- When the loop runs at least one iteration with a nonempty output
capacity and an in-page offset, a successful run produces at least one
byte. -/
theorem readExtentLoop_pos (disc : Disc) (crypto : CryptoM) (enc : Bool)
    (ino bs : Nat) (ext : Extent) (output_len fuel bi off : Nat) (out : List Nat)
    (hf : 0 < fuel) (hoff : off < bs) (hol : 0 < output_len)
    (h : readExtentLoop disc crypto enc ino bs ext output_len fuel bi off [] =
      Except.ok out) :
    0 < out.length := by
  cases fuel with
  | zero => omega
  | succ k =>
    simp only [readExtentLoop] at h
    split at h
    · cases h
    · next page hpe =>
      have hplen : page.length = bs := readPage_length disc crypto enc ino bs _ _ page hpe
      split at h
      · next hfull =>
        cases h
        simp only [List.nil_append, List.length_nil, List.length_take, List.length_drop]
          at hfull ⊢
        omega
      · have := readExtentLoop_length_ge disc crypto enc ino bs ext output_len k (bi + 1) 0 _
          out h
        simp only [List.nil_append, List.length_nil, List.length_take, List.length_drop]
          at this
        omega

/-- Accounting for one successful `read`: the cursor advances by exactly
the number of bytes produced, stays within the file, and a read of zero
bytes happens only at an empty buffer or at end of file. -/
theorem treeRead_ok_spec (disc : Disc) (crypto : CryptoM) (r : TreeReader) (c : Nat)
    (bytes : List Nat) (r' : TreeReader) (hbs : 0 < r.block_size) (hpl : r.pos ≤ r.len)
    (h : treeRead disc crypto r c = (Except.ok bytes, r')) :
    r' = { r with pos := r.pos + bytes.length } ∧ bytes.length ≤ r.len - r.pos ∧
      (bytes.length = 0 → c = 0 ∨ r.pos = r.len) := by
  simp only [treeRead] at h
  split at h
  · next hc =>
    rw [Prod.mk.injEq] at h
    obtain ⟨h1, h2⟩ := h
    cases h1
    cases h2
    exact ⟨by simp, by simp, fun _ => Or.inl hc⟩
  · split at h
    · split at h
      · next ext hfp =>
        split at h
        · rw [Prod.mk.injEq] at h
          cases h.1
        · rename_i out hloop
          rw [Prod.mk.injEq] at h
          obtain ⟨h1, h2⟩ := h
          cases h1
          cases h2
          have hle := readExtentLoop_length_le disc crypto r.encrypted r.ino r.block_size ext
            (min (r.len - r.pos) c) _ _ _ [] bytes (Nat.zero_le _) hloop
          refine ⟨rfl, by omega, ?_⟩
          intro h0
          by_contra hcon
          push_neg at hcon
          obtain ⟨hc0, hpll⟩ := hcon
          have hcover := find_part_actual_covers _ _ _ hfp
          have hpos := readExtentLoop_pos disc crypto r.encrypted r.ino r.block_size ext
            (min (r.len - r.pos) c) (ext.part + ext.len - r.pos / r.block_size)
            (r.pos / r.block_size) (r.pos % r.block_size) bytes
            (by omega) (Nat.mod_lt _ hbs) (by omega) hloop
          omega
      · next mx hfp =>
        rw [Prod.mk.injEq] at h
        obtain ⟨h1, h2⟩ := h
        cases h1
        cases h2
        have hmx := find_part_sparse_pos _ _ _ hfp
        have hmb : 1 ≤ mx * r.block_size := Nat.mul_pos hmx hbs
        refine ⟨by simp, by simp, ?_⟩
        intro h0
        simp only [List.length_replicate] at h0
        omega
    · rw [Prod.mk.injEq] at h
      cases h.1

/-- Accounting for `read_to_end`: a successful run extends the
accumulator by exactly the bytes between the cursor and the size. -/
theorem readToEnd_length (disc : Disc) (crypto : CryptoM) (c : Nat) (hc : 0 < c) :
    ∀ fuel (r : TreeReader) acc out, 0 < r.block_size → r.pos ≤ r.len →
      readToEnd disc crypto c fuel r acc = Except.ok out →
      out.length + r.pos = acc.length + r.len := by
  intro fuel
  induction fuel with
  | zero =>
    intro r acc out _ _ h
    cases h
  | succ k ih =>
    intro r acc out hbs hpl h
    simp only [readToEnd] at h
    split at h
    · cases h
    · next bytes r' hres =>
      obtain ⟨hr', hble, hz⟩ := treeRead_ok_spec disc crypto r c bytes r' hbs hpl hres
      split at h
      · next h0 =>
        cases h
        rcases hz h0 with hc0 | hpe
        · omega
        · omega
      · subst hr'
        have := ih { r with pos := r.pos + bytes.length } (acc ++ bytes) out hbs
          (show r.pos + bytes.length ≤ r.len by omega) h
        simp only [List.length_append] at this
        omega

/-- C2 (size law).  Whenever `read_to_end` from position 0 succeeds on a
stream reader — any size, block size, and extent list, a partial final
block included — it yields exactly `len` (= `stat.size`) bytes. -/
theorem c2_read_to_end_size (disc : Disc) (crypto : CryptoM) (chunk fuel : Nat)
    (r : TreeReader) (out : List Nat) (hchunk : 0 < chunk) (hbs : 0 < r.block_size)
    (hpos : r.pos = 0)
    (h : readToEnd disc crypto chunk fuel r [] = Except.ok out) :
    out.length = r.len := by
  have hacc := readToEnd_length disc crypto chunk hchunk fuel r [] out hbs (by omega) h
  simp only [List.length_nil, Nat.zero_add, hpos, Nat.add_zero] at hacc
  exact hacc

/-- Witness for C2 at boundary scenario 3 (partial final block: size 3,
block size 4, one extent): `read_to_end` yields `[40, 41, 42]`, exactly
`stat.size = 3` bytes. -/
theorem c2_read_to_end_size_witness :
    readToEnd discId cryptoId 32 5 rEx3 [] = Except.ok [40, 41, 42] ∧
    ([40, 41, 42] : List Nat).length = rEx3.len :=
  ⟨rfl, c2_read_to_end_size discId cryptoId 32 5 rEx3 [40, 41, 42] (by decide) (by decide)
    rfl rfl⟩

end Ext4
